import Mathlib

/-!
Verification development for the PinMuxLab core: the pin-capability
inference compiler (`src/web/src/utils/chipInferencer.ts`) and the
function-assignment allocation engine (`src/web/src/stores/chipStore.ts`).

The JavaScript objects are modelled as insertion-ordered association
lists (`List (String × α)`), which matches the enumeration order of
`Object.entries` / `for ... in` on the small data the program handles.
JS `delete` removes a key; JS assignment updates a key in place or
appends a new key at the end; both are modelled exactly below.
-/

namespace PinMuxLab

/-- Association-list read: the value stored under key `k`, first match
wins (JS object keys are unique, so this is exact). -/
def getV {α : Type} : List (String × α) → String → Option α
  | [], _ => none
  | (q, v) :: t, k => if q = k then some v else getV t k

/-- Association-list write, JS semantics: an existing key is updated in
place (keeping its position), a new key is appended at the end. -/
def setV {α : Type} : List (String × α) → String → α → List (String × α)
  | [], k, v => [(k, v)]
  | (q, w) :: t, k, v => if q = k then (q, v) :: t else (q, w) :: setV t k v

/-- JS `delete obj[k]`: remove the entry for key `k`. -/
def delK {α : Type} (l : List (String × α)) (k : String) : List (String × α) :=
  l.filter (fun e => decide (e.1 ≠ k))

/-- Push `x` at the end unless already present (JS `Set.add` /
`if (!xs.includes(x)) xs.push(x)`). -/
def addUniq (l : List String) (x : String) : List String :=
  if x ∈ l then l else l ++ [x]

/-- Update an association list of string lists: create the key with a
singleton list, or push the item at the end of the existing list if it
is not already there.  This is `addFunction` from chipInferencer.ts and
the `signals[signalName].push(pinName)` pattern there. -/
def addToList : List (String × List String) → String → String → List (String × List String)
  | [], k, x => [(k, [x])]
  | (q, xs) :: t, k, x =>
    if q = k then (q, if x ∈ xs then xs else xs ++ [x]) :: t
    else (q, xs) :: addToList t k x

/-- List-level prefix test, used to model JS `String.prototype.startsWith`
(kept structural so that the kernel can evaluate it). -/
def isPrefixL : List Char → List Char → Bool
  | [], _ => true
  | _ :: _, [] => false
  | a :: as, b :: bs => if a = b then isPrefixL as bs else false

/-- JS `s.startsWith(p)`. -/
def strStartsWith (s p : String) : Bool :=
  isPrefixL p.data s.data

/-- JS `s.includes(t)` (substring containment), structural recursion. -/
def containsSub : List Char → List Char → Bool
  | [], needle => isPrefixL needle []
  | c :: rest, needle => isPrefixL needle (c :: rest) || containsSub rest needle

/-- JS `s.includes(t)` on strings. -/
def strIncludes (s t : String) : Bool :=
  containsSub s.data t.data

/-- JS `s.toUpperCase()` restricted to ASCII, the only case the chip
category names use. -/
def charUpper (c : Char) : Char :=
  if c.isLower then Char.ofNat (c.toNat - 32) else c

/-- String uppercase via `charUpper`. -/
def strToUpper (s : String) : String :=
  ⟨s.data.map charUpper⟩

/-! Data model, from `src/web/src/types` (reproduced at the bottom of
chipInferencer.ts) together with the dynamic shapes `inferChipData`
accepts.  One structure `Periph` covers both the flat (already
normalized) peripheral value, whose fields are `type`, `group`,
`description`, `signals`, `pinmaps`, and the nested category value,
whose entries are a `Description` string plus instance sub-objects;
absent JS fields are `none`. -/

/-- Physical pin from `package.pins`. -/
structure PhysPin where
  number : Nat
  name : String
deriving DecidableEq

/-- Package description. -/
structure PackageInfo where
  ptype : String
  pinCount : Nat
  pins : List PhysPin
deriving DecidableEq

/-- Pin capability entry: `{type, fixed, functions}`. -/
structure PinCapability where
  ptype : String
  fixed : Bool
  functions : List String
deriving DecidableEq

/-- One signal-name → pin-name mapping scheme. -/
abbrev Pinmap := List (String × String)

/-- Nested-format instance value: either a direct array of pinmaps or an
object with an optional `pinmaps` field
(`Array.isArray(subData) ? subData : (subData?.pinmaps || [])`). -/
inductive RawInst where
  | arr (pinmaps : List Pinmap)
  | obj (pinmaps : Option (List Pinmap))
deriving DecidableEq

/-- Peripheral value.  Flat/normalized values use `ptype`, `group`,
`descL` (JS `description`), `signals`, `pinmaps`; nested category values
use `descU` (JS `Description`) and `insts` (the instance sub-keys). -/
structure Periph where
  ptype : Option String
  group : Option String
  descL : Option String
  descU : Option String
  signals : Option (List (String × List String))
  pinmaps : Option (List Pinmap)
  insts : List (String × RawInst)
deriving DecidableEq

/-- Chip description object: both the raw JSON shape fed to
`inferChipData` and its normalized output (JS passes the same object
around untyped). -/
structure ChipData where
  meta : String
  package : Option PackageInfo
  pins : Option (List (String × PinCapability))
  peripherals : Option (List (String × Periph))
deriving DecidableEq

/-! Capability inference compiler, from chipInferencer.ts lines 15-232. -/

/-- Helper to determine pin type (chipInferencer.ts `getPinType`,
lines 209-215).  Note the checks are case-sensitive, exactly as in the
source. -/
def getPinType (name : String) : String :=
  if strStartsWith name "VDD" = true ∨ name = "VBAT" then "power"
  else if strStartsWith name "VSS" = true ∨ name = "GND" ∨ name = "VSSA" then "gnd"
  else if name = "NRST" then "reset"
  else if strStartsWith name "BOOT" = true then "boot"
  else "gpio"

/-- Helper to map a category to a coarse type (chipInferencer.ts
`mapCategoryToType`, lines 218-232). -/
def mapCategoryToType (category : String) : String :=
  let cat := strToUpper category
  if strIncludes cat "UART" = true ∨ strIncludes cat "USART" = true then "uart"
  else if strIncludes cat "SPI" = true then "spi"
  else if strIncludes cat "I2C" = true then "i2c"
  else if strIncludes cat "ADC" = true then "adc"
  else if strIncludes cat "TIM" = true ∨ strIncludes cat "GPTM" = true ∨ strIncludes cat "ADTM" = true then "timer"
  else if strIncludes cat "CAN" = true then "can"
  else if strIncludes cat "USB" = true then "usb"
  else if strIncludes cat "ETH" = true then "eth"
  else if strIncludes cat "OPA" = true then "opa"
  else if strIncludes cat "COMP" = true then "comparator"
  else if strIncludes cat "SYS" = true then "sys"
  else ⟨category.data.map Char.toLower⟩

/-- Sort rank of a pin type (the `typeOrder` record, with the `?? 99`
default). -/
def typeOrderOf (t : String) : Nat :=
  if t = "power" then 1
  else if t = "gnd" then 2
  else if t = "reset" then 3
  else if t = "boot" then 4
  else if t = "gpio" then 5
  else 99

/-- Token of the natural-alphanumeric comparison: a digit run collapsed
to its numeric value, or a single case-folded character. -/
inductive NatTok where
  | num (n : Nat)
  | chr (c : Char)
deriving DecidableEq

/-- Numeric value of a digit character. -/
def digitVal (c : Char) : Nat := c.toNat - 48

/-- Consume a digit run, accumulating its value. -/
def grabNum : List Char → Nat → Nat × List Char
  | [], acc => (acc, [])
  | c :: cs, acc => if c.isDigit then grabNum cs (acc * 10 + digitVal c) else (acc, c :: cs)

/-- Fuel-driven tokenizer (the fuel is an upper bound on the number of
tokens; `tokenizeNat` always supplies enough). -/
def tokenizeNatF : Nat → List Char → List NatTok
  | 0, _ => []
  | _ + 1, [] => []
  | f + 1, c :: cs =>
    if c.isDigit then
      let p := grabNum cs (digitVal c)
      NatTok.num p.1 :: tokenizeNatF f p.2
    else NatTok.chr c.toLower :: tokenizeNatF f cs

/-- Tokenize a string for natural-alphanumeric comparison. -/
def tokenizeNat (l : List Char) : List NatTok :=
  tokenizeNatF (l.length + 1) l

/-- Compare two tokens. -/
def natTokCmp : NatTok → NatTok → Ordering
  | NatTok.num a, NatTok.num b => compare a b
  | NatTok.num _, NatTok.chr _ => Ordering.lt
  | NatTok.chr _, NatTok.num _ => Ordering.gt
  | NatTok.chr a, NatTok.chr b => compare a b

/-- Lexicographic comparison of token lists. -/
def natToksCmp : List NatTok → List NatTok → Ordering
  | [], [] => Ordering.eq
  | [], _ :: _ => Ordering.lt
  | _ :: _, [] => Ordering.gt
  | a :: as, b :: bs =>
    match natTokCmp a b with
    | Ordering.eq => natToksCmp as bs
    | o => o

/-- Model of `a.localeCompare(b, undefined, {numeric: true, sensitivity:
"base"})`: case-insensitive comparison with digit runs compared
numerically. -/
def natCompare (a b : String) : Ordering :=
  natToksCmp (tokenizeNat a.data) (tokenizeNat b.data)

/-- Strict order used by the pin-table sort: type rank first, then
natural alphanumeric order of the name. -/
def pinLt (a b : String) : Bool :=
  let ra := typeOrderOf (getPinType a)
  let rb := typeOrderOf (getPinType b)
  if ra = rb then decide (natCompare a b = Ordering.lt) else decide (ra < rb)

/-- Stable insertion of `x` before the first element not strictly below
it. -/
def insertSorted (x : String) : List String → List String
  | [] => [x]
  | y :: ys => if pinLt y x then y :: insertSorted x ys else x :: y :: ys

/-- Stable sort of the pin-name list (JS `Array.prototype.sort` is
stable; any stable sort by the same order agrees with it). -/
def pinSort : List String → List String
  | [] => []
  | x :: xs => insertSorted x (pinSort xs)

/-- Function identifier generated by the compiler for instance key
`subKey` and signal `sig` (chipInferencer.ts lines 106-110): the bare
signal name for an empty/default instance key, otherwise
`subKey + "_" + sig`.  Note: no scheme-index suffix is applied. -/
def instFuncName (subKey sig : String) : String :=
  if subKey = "" ∨ subKey = "default" then sig else subKey ++ "_" ++ sig

/-- Peripheral name chosen for a nested instance (line 89). -/
def periphNameOf (categoryKey subKey : String) : String :=
  if subKey = "" ∨ subKey = "default" then categoryKey else subKey

/-- State threaded through the nested-peripheral walk: the global
pin→functions index and the normalized peripheral table. -/
abbrev InferState := List (String × List String) × List (String × Periph)

/-- Process one signal entry of one pinmap: record the generated
function name on the pin and the pin on the signal (lines 98-121). -/
def processMapEntry (subKey : String) (st : List (String × List String) × List (String × List String))
    (e : String × String) : List (String × List String) × List (String × List String) :=
  (addToList st.1 e.2 (instFuncName subKey e.1), addToList st.2 e.1 e.2)

/-- Process one pinmap. -/
def processMap (subKey : String) (st : List (String × List String) × List (String × List String))
    (m : Pinmap) : List (String × List String) × List (String × List String) :=
  m.foldl (processMapEntry subKey) st

/-- Process one nested instance (lines 76-132): walk its pinmaps and
record the normalized peripheral definition. -/
def processInst (categoryKey categoryDesc : String) (st : InferState)
    (inst : String × RawInst) : InferState :=
  let subKey := inst.1
  let pinmaps := match inst.2 with
    | RawInst.arr ms => ms
    | RawInst.obj o => o.getD []
  let p := pinmaps.foldl (processMap subKey) (st.1, [])
  let norm : Periph :=
    { ptype := some (mapCategoryToType categoryKey)
      group := some categoryKey
      descL := some categoryDesc
      descU := none
      signals := some p.2
      pinmaps := some pinmaps
      insts := [] }
  (p.1, setV st.2 (periphNameOf categoryKey subKey) norm)

/-- Process one category (lines 72-133). -/
def processCat (st : InferState) (cat : String × Periph) : InferState :=
  cat.2.insts.foldl (processInst cat.1 (cat.2.descU.getD "")) st

/-- Build the capability entry of one pin (lines 160-198). -/
def buildCap (pf : List (String × List String)) (pinName : String) : PinCapability :=
  let t := getPinType pinName
  let base := (getV pf pinName).getD []
  let fns :=
    if t = "gpio" then
      if "GPIO" ∈ base then "GPIO" :: base.erase "GPIO" else "GPIO" :: base
    else if t = "gnd" then (if base = [] then ["GND"] else base)
    else if t = "power" then (if base = [] then [pinName] else base)
    else if t = "reset" then (if base = [] then ["NRST"] else base)
    else if t = "boot" then (if base = [] then [pinName] else base)
    else base
  { ptype := t, fixed := decide (t ≠ "gpio"), functions := fns.foldl addUniq [] }

/-- JS truthiness of an optional string (`undefined` and `""` are
falsy). -/
def truthyS : Option String → Bool
  | none => false
  | some s => decide (s ≠ "")

/-- Format detection of `inferChipData` (lines 16-38): old/flat when the
first peripheral value carries `pinmaps`, `signals` or a truthy `group`,
or, with no peripherals, when a non-empty `pins` table exists. -/
def inferOld (raw : ChipData) : Bool :=
  match raw.peripherals.getD [] with
  | [] =>
    match raw.pins with
    | some l => decide (l ≠ [])
    | none => false
  | (_, fp) :: _ => fp.pinmaps.isSome || fp.signals.isSome || truthyS fp.group

/-- Infer a full ChipDefinition from raw JSON data (chipInferencer.ts
`inferChipData`, lines 15-206, the active first definition). -/
def inferChipData (raw : ChipData) : ChipData :=
  if inferOld raw = true then raw
  else
    let allPins := (match raw.package with
      | some pk => pk.pins.map PhysPin.name
      | none => []).foldl addUniq []
    let st := (raw.peripherals.getD []).foldl processCat ([], [])
    let distinct := (allPins ++ st.1.map Prod.fst).foldl addUniq []
    { meta := raw.meta
      package := raw.package
      pins := some ((pinSort distinct).map (fun n => (n, buildCap st.1 n)))
      peripherals := some st.2 }

/-! Assignment allocation engine, from chipStore.ts lines 8-288.  The
store state `pinConfigurations` (pin name → selected function) is the
`Config` association list; `setPinFunction` is modelled as a function
from the loaded chip and the current table to the new table plus the
conflict list it would surface (empty on every committed or silently
rejected call). -/

/-- The assignment table `pinConfigurations`. -/
abbrev Config := List (String × String)

/-- Context returned by `findFunctionContext`. -/
structure Ctx where
  periphName : String
  signalName : String
  mapIndex : Nat
  periphDef : Periph
deriving DecidableEq

/-- Scheme suffix: empty for index 0, `"_" + i` otherwise (chipStore.ts
line 61 and line 137). -/
def suffixOf (i : Nat) : String :=
  if i = 0 then "" else "_" ++ toString i

/-- Skip test of the resolver loop: with a candidate pin supplied, an
entry routed to a different pin is skipped (`pinName && mapPin !==
pinName`). -/
def skipEntry (cand : Option String) (mapPin : String) : Bool :=
  match cand with
  | some pn => decide (mapPin ≠ pn)
  | none => false

/-- Inner loop of `findFunctionContext` over one pinmap's signal
entries (lines 64-80): returns the matching signal name. -/
def matchSig (periphName sfx funcName : String) (cand : Option String) :
    List (String × String) → Option String
  | [] => none
  | (sig, mapPin) :: rest =>
    if skipEntry cand mapPin = true then matchSig periphName sfx funcName cand rest
    else if funcName = periphName ++ "_" ++ sig ++ sfx then some sig
    else if funcName = sig ++ sfx then some sig
    else matchSig periphName sfx funcName cand rest

/-- Middle loop of `findFunctionContext` over the pinmaps of one
peripheral (lines 58-81), carrying the running map index. -/
def scanMaps (periphName funcName : String) (cand : Option String) :
    List Pinmap → Nat → Option (String × Nat)
  | [], _ => none
  | m :: rest, i =>
    match matchSig periphName (suffixOf i) funcName cand m with
    | some sig => some (sig, i)
    | none => scanMaps periphName funcName cand rest (i + 1)

/-- Outer loop of `findFunctionContext` over all peripherals (lines
54-82). -/
def scanPeriphs (funcName : String) (cand : Option String) :
    List (String × Periph) → Option Ctx
  | [] => none
  | (pn, d) :: rest =>
    match d.pinmaps with
    | none => scanPeriphs funcName cand rest
    | some ms =>
      match scanMaps pn funcName cand ms 0 with
      | some si => some ⟨pn, si.1, si.2, d⟩
      | none => scanPeriphs funcName cand rest

/-- Helper to find the peripheral context of a function name
(chipStore.ts `findFunctionContext`, lines 50-84). -/
def findFunctionContext (chip : ChipData) (funcName : String) (cand : Option String) :
    Option Ctx :=
  match chip.peripherals with
  | none => none
  | some ps => scanPeriphs funcName cand ps

/-- The `(peripheral, signal)` pair a function name resolves to without
a candidate-pin constraint, the reverse lookup used by the exclusivity
and linkage passes. -/
def pairOf (chip : ChipData) (funcName : String) : Option (String × String) :=
  match findFunctionContext chip funcName none with
  | some c => some (c.periphName, c.signalName)
  | none => none

/-- Capability functions of a pin (chipStore.ts `getPinFunctions`,
lines 220-224). -/
def getPinFunctions (chip : ChipData) (pinName : String) : List String :=
  match chip.pins with
  | none => []
  | some ps =>
    match getV ps pinName with
    | some cap => cap.functions
    | none => []

/-- Exclusivity pass (lines 114-124): drop every other pin whose
current function resolves to the same `(peripheral, signal)` pair. -/
def exclPass (chip : ChipData) (cfg : Config) (pinName periphName signalName : String) :
    Config :=
  cfg.filter (fun e =>
    decide (e.1 = pinName ∨ ¬ pairOf chip e.2 = some (periphName, signalName)))

/-- Linkage conflict entry `(signal, target pin, occupying function)`;
the source renders it as the string
`sig -> targetPin (Occupied by currentOwner)`. -/
structure Conflict where
  sig : String
  targetPin : String
  occupant : String
deriving DecidableEq

/-- Target function chosen for a sibling signal on its target pin
(lines 135-144): the full `periph_signal+suffix` name if the pin's
capability list has it, else the short `signal+suffix` name, else the
empty marker. -/
def targetFuncFor (chip : ChipData) (periphName sfx sig targetPin : String) : String :=
  let pf1 := periphName ++ "_" ++ sig ++ sfx
  let pf2 := sig ++ sfx
  let fns := getPinFunctions chip targetPin
  if pf1 ∈ fns then pf1 else if pf2 ∈ fns then pf2 else ""

/-- Is a signal currently active on some pin of the working table
(lines 148-156)? -/
def signalActive (chip : ChipData) (cfg : Config) (periphName sig : String) : Bool :=
  cfg.any (fun e => decide (pairOf chip e.2 = some (periphName, sig)))

/-- Loop body of the linkage pass (lines 132-168): skip the signal just
assigned, skip a sibling whose target function is not available on the
target pin, and otherwise schedule a migration or record a conflict
depending on the target pin's occupant. -/
def linkStep (chip : ChipData) (base : Config) (periphName signalName sfx : String)
    (acc : List (String × String) × List Conflict) (e : String × String) :
    List (String × String) × List Conflict :=
  if e.1 = signalName then acc
  else
    let tf := targetFuncFor chip periphName sfx e.1 e.2
    if tf = "" then acc
    else if signalActive chip base periphName e.1 = true then
      match getV base e.2 with
      | none => (acc.1 ++ [(e.2, tf)], acc.2)
      | some owner =>
        if owner = "" ∨ owner = tf then (acc.1 ++ [(e.2, tf)], acc.2)
        else (acc.1, acc.2 ++ [⟨e.1, e.2, owner⟩])
    else acc

/-- Linkage pass over the resolved scheme's signal map: collected
switch operations and conflicts. -/
def linkagePass (chip : ChipData) (base : Config) (periphName signalName sfx : String)
    (tm : Pinmap) : List (String × String) × List Conflict :=
  tm.foldl (linkStep chip base periphName signalName sfx) ([], [])

/-- First commit phase (lines 181-191): for each scheduled switch,
clear every pin whose function resolves to the migrating signal's
pair. -/
def delForOp (chip : ChipData) (c : Config) (op : String × String) : Config :=
  match findFunctionContext chip op.2 none with
  | none => c
  | some cx =>
    c.filter (fun e => decide (¬ pairOf chip e.2 = some (cx.periphName, cx.signalName)))

/-- Set or clear a pin's function (chipStore.ts `setPinFunction`, lines
86-206): returns the table the store commits (the original table on a
silent rejection or a linkage abort) together with the surfaced
conflict list. -/
def setPinFunction (chip : ChipData) (cfg : Config) (pinName func : String) :
    Config × List Conflict :=
  if func = "" then (delK cfg pinName, [])
  else if func ∉ getPinFunctions chip pinName then (cfg, [])
  else
    match findFunctionContext chip func (some pinName) with
    | none => (setV cfg pinName func, [])
    | some ctx =>
      let base := exclPass chip cfg pinName ctx.periphName ctx.signalName
      match (match ctx.periphDef.pinmaps with
        | none => none
        | some ms => ms.get? ctx.mapIndex) with
      | none => (setV base pinName func, [])
      | some tm =>
        let pc := linkagePass chip base ctx.periphName ctx.signalName
          (suffixOf ctx.mapIndex) tm
        if pc.2 ≠ [] then (cfg, pc.2)
        else
          let afterDel := pc.1.foldl (delForOp chip) base
          let afterSet := pc.1.foldl (fun c op => setV c op.1 op.2) afterDel
          (setV afterSet pinName func, [])

/-- Apply a sequence of assign/clear requests starting from the empty
table (clearing is `func = ""`). -/
def applyOps (chip : ChipData) (ops : List (String × String)) : Config :=
  ops.foldl (fun cfg op => (setPinFunction chip cfg op.1 op.2).1) []

/-- Store state after a chip load. -/
structure StoreState where
  currentChip : Option ChipData
  pinConfigurations : Config
  selectedPinName : Option String
deriving DecidableEq

/-- Load a chip (chipStore.ts `loadChip`, lines 16-33).  The persisted
configuration, if any parses, is installed verbatim; a missing or
unparseable one resets the table (`saved = none` covers both). -/
def loadChip (raw : ChipData) (saved : Option Config) : StoreState :=
  { currentChip := some (inferChipData raw)
    pinConfigurations := saved.getD []
    selectedPinName := none }

/-! Concrete chip descriptions used by the theorems below. -/

/-- Empty peripheral value (all JS fields absent). -/
def emptyPeriph : Periph :=
  { ptype := none, group := none, descL := none, descU := none,
    signals := none, pinmaps := none, insts := [] }

/-- Scheme 0 of the Scenario B `USART1`: `{TX: PA9, RX: PA10}`. -/
def usartMap0 : Pinmap := [("TX", "PA9"), ("RX", "PA10")]

/-- Scheme 1 of the Scenario B `USART1`: `{TX: PB6, RX: PB7}`. -/
def usartMap1 : Pinmap := [("TX", "PB6"), ("RX", "PB7")]

/-- Scenario B chip in the nested (v2.0) on-disk format: a `UART/USART`
category holding the single instance `USART1` with the two mapping
schemes. -/
def scenarioBRaw : ChipData :=
  { meta := "DEMO"
    package := some
      { ptype := "LQFP48", pinCount := 4,
        pins := [⟨1, "PA9"⟩, ⟨2, "PA10"⟩, ⟨3, "PB6"⟩, ⟨4, "PB7"⟩] }
    pins := none
    peripherals := some
      [("UART/USART",
        { emptyPeriph with
            descU := some "Universal sync/async receiver transmitter"
            insts := [("USART1", RawInst.obj (some [usartMap0, usartMap1]))] })] }

/-- The Scenario B chip as the compiler actually normalizes it. -/
def chipB : ChipData := inferChipData scenarioBRaw

/-- Flat `USART1` peripheral definition carrying both schemes, as the
engine consumes it. -/
def usart1Periph : Periph :=
  { emptyPeriph with
      ptype := some "uart"
      group := some "UART/USART"
      signals := some [("TX", ["PA9", "PB6"]), ("RX", ["PA10", "PB7"])]
      pinmaps := some [usartMap0, usartMap1] }

/-- Scenario B chip in the already-normalized (old) format, with the
scheme-suffixed capability names the engine's linkage logic expects
(this is the shape the repository's own linkage simulation test hand
writes). -/
def chipGood : ChipData :=
  { meta := "DEMO"
    package := some
      { ptype := "LQFP48", pinCount := 5,
        pins := [⟨1, "PA9"⟩, ⟨2, "PA10"⟩, ⟨3, "PB6"⟩, ⟨4, "PB7"⟩, ⟨5, "VDD"⟩] }
    pins := some
      [("PA9", ⟨"gpio", false, ["GPIO", "USART1_TX"]⟩),
       ("PA10", ⟨"gpio", false, ["GPIO", "USART1_RX"]⟩),
       ("PB6", ⟨"gpio", false, ["GPIO", "USART1_TX_1"]⟩),
       ("PB7", ⟨"gpio", false, ["GPIO", "USART1_RX_1", "SPI1_MISO"]⟩),
       ("VDD", ⟨"power", true, ["VDD"]⟩)]
    peripherals := some [("USART1", usart1Periph)] }

/-- Two-peripheral chip: `USART1` (both schemes) and `USART2`, each
with `TX`/`RX` signals, so the bare short identifiers collide across
peripherals while every capability list carries only the unambiguous
prefixed names. -/
def chipTwo : ChipData :=
  { meta := "DEMO2"
    package := some
      { ptype := "LQFP48", pinCount := 7,
        pins := [⟨1, "PA9"⟩, ⟨2, "PA10"⟩, ⟨3, "PB6"⟩, ⟨4, "PB7"⟩, ⟨5, "PA2"⟩,
          ⟨6, "PA3"⟩, ⟨7, "VDD"⟩] }
    pins := some
      [("PA9", ⟨"gpio", false, ["GPIO", "USART1_TX"]⟩),
       ("PA10", ⟨"gpio", false, ["GPIO", "USART1_RX"]⟩),
       ("PB6", ⟨"gpio", false, ["GPIO", "USART1_TX_1"]⟩),
       ("PB7", ⟨"gpio", false, ["GPIO", "USART1_RX_1"]⟩),
       ("PA2", ⟨"gpio", false, ["GPIO", "USART2_TX"]⟩),
       ("PA3", ⟨"gpio", false, ["GPIO", "USART2_RX"]⟩),
       ("VDD", ⟨"power", true, ["VDD"]⟩)]
    peripherals := some
      [("USART1", usart1Periph),
       ("USART2",
        { emptyPeriph with
            ptype := some "uart"
            group := some "UART/USART"
            signals := some [("TX", ["PA2"]), ("RX", ["PA3"])]
            pinmaps := some [[("TX", "PA2"), ("RX", "PA3")]] })] }

/-- Variant of `chipGood` whose `PB7` capability list lacks the
suffixed `USART1_RX_1` (and the short `RX_1`), so the linkage pass can
find no target function for the `RX` sibling. -/
def chipSkip : ChipData :=
  { chipGood with
      pins := some
        [("PA9", ⟨"gpio", false, ["GPIO", "USART1_TX"]⟩),
         ("PA10", ⟨"gpio", false, ["GPIO", "USART1_RX"]⟩),
         ("PB6", ⟨"gpio", false, ["GPIO", "USART1_TX_1"]⟩),
         ("PB7", ⟨"gpio", false, ["GPIO"]⟩)] }

/-! Theorems settling the specification claims. -/

/-- C1. The spec's Scenario B requires `assign(PB6, "USART1_TX_1")` to
succeed and migrate `RX`, but on the chip as the inference compiler
actually normalizes it the suffixed identifier `USART1_TX_1` is absent
from `PB6`'s capability list (the compiler emits `USART1_TX` for scheme
index 1 as well), so the membership guard silently rejects the call and
the table is returned unchanged: the code contradicts the intended
linked-remap behaviour at this input. -/
theorem c1_remap_rejected_on_inferred_chip :
    setPinFunction chipB [("PA9", "USART1_TX"), ("PA10", "USART1_RX")] "PB6" "USART1_TX_1"
      = ([("PA9", "USART1_TX"), ("PA10", "USART1_RX")], [])
    ∧ "USART1_TX_1" ∉ getPinFunctions chipB "PB6" := by
  constructor
  · decide
  · decide

/-- C5. For the alternate scheme (index 1) routing `TX` to `PB6`, the
naming scheme's identifier is `USART1_TX_1` (suffix `_1`), but the
compiler adds the unsuffixed `USART1_TX` to `PB6`: the generated name
ignores the scheme index entirely (`instFuncName` has no index
parameter), contradicting the claimed `"_" + i` suffix for `i ≥ 1`. -/
theorem c5_compiler_drops_scheme_suffix :
    getPinFunctions chipB "PB6" = ["GPIO", "USART1_TX"]
    ∧ "USART1_TX_1" ∉ getPinFunctions chipB "PB6"
    ∧ instFuncName "USART1" "TX" = "USART1_TX"
    ∧ suffixOf 1 = "_1" := by
  refine ⟨by decide, by decide, by decide, by decide⟩

/-- C2. Transactionality: whenever `setPinFunction` surfaces a
non-empty linkage-conflict list, the table it commits is exactly the
table before the call — the working copy, including every entry the
exclusivity pass had deleted from it, is discarded. -/
theorem c2_transactional (chip : ChipData) (cfg : Config) (pinName func : String)
    (h : (setPinFunction chip cfg pinName func).2 ≠ []) :
    (setPinFunction chip cfg pinName func).1 = cfg := by
  by_cases hf : func = ""
  · simp [setPinFunction, hf] at h
  · by_cases hs : func ∈ getPinFunctions chip pinName
    · cases hctx : findFunctionContext chip func (some pinName) with
      | none => simp [setPinFunction, hf, hs, hctx] at h
      | some ctx =>
        cases hms : ctx.periphDef.pinmaps with
        | none => simp [setPinFunction, hf, hs, hctx, hms] at h
        | some ms =>
          cases hpm : ms[ctx.mapIndex]? with
          | none => simp [setPinFunction, hf, hs, hctx, hms, hpm] at h
          | some tm =>
            by_cases hc :
              (linkagePass chip (exclPass chip cfg pinName ctx.periphName ctx.signalName)
                ctx.periphName ctx.signalName (suffixOf ctx.mapIndex) tm).2 = []
            · simp [setPinFunction, hf, hs, hctx, hms, hpm, hc] at h
            · simp [setPinFunction, hf, hs, hctx, hms, hpm, hc]
    · simp [setPinFunction, hf, hs] at h

/-- Witness for C2 at the spec's Scenario C: `PB7` is occupied by
`SPI1_MISO`, so switching `USART1` to scheme 1 reports the conflict and
leaves the table untouched. -/
theorem c2_transactional_w :
    (setPinFunction chipGood [("PA10", "USART1_RX"), ("PB7", "SPI1_MISO")]
        "PB6" "USART1_TX_1").2 ≠ []
    ∧ (setPinFunction chipGood [("PA10", "USART1_RX"), ("PB7", "SPI1_MISO")]
        "PB6" "USART1_TX_1").1 = [("PA10", "USART1_RX"), ("PB7", "SPI1_MISO")] :=
  ⟨by decide, c2_transactional chipGood [("PA10", "USART1_RX"), ("PB7", "SPI1_MISO")]
    "PB6" "USART1_TX_1" (by decide)⟩

/-- C7 counterexample: the engine has no fixed-pin guard, and a fixed
pin's capability list contains its own identity function, so
`assign("VDD", "VDD")` passes the membership check and adds the entry
`VDD ↦ VDD` to the previously empty table — the table changes. -/
theorem c7_fixed_pin_assignment_changes_table :
    (getV (chipGood.pins.getD []) "VDD").map PinCapability.fixed = some true
    ∧ setPinFunction chipGood [] "VDD" "VDD" = ([("VDD", "VDD")], []) := by
  refine ⟨by decide, by decide⟩

/-- Capability list of a pin whose entry is present. -/
theorem getPinFunctions_of_cap (chip : ChipData) (pinName : String) (cap : PinCapability)
    (hcap : getV (chip.pins.getD []) pinName = some cap) :
    getPinFunctions chip pinName = cap.functions := by
  cases hp : chip.pins with
  | none => rw [hp] at hcap; simp [getV] at hcap
  | some ps => rw [hp] at hcap; simp only [Option.getD] at hcap
               simp [getPinFunctions, hp, hcap]

/-- C7 amended: `assign(fixedPin, f)` leaves the table unchanged for
every non-empty `f` outside the pin's capability list (which for a
fixed pin holds only its own identity function); the engine rejects
such a call via the membership guard.  Assigning the identity function
itself, however, does commit an entry (see the counterexample). -/
theorem c7_fixed_pin_reject_amended (chip : ChipData) (cfg : Config)
    (pinName func : String) (cap : PinCapability)
    (hcap : getV (chip.pins.getD []) pinName = some cap) (hfix : cap.fixed = true)
    (hne : func ≠ "") (hmem : func ∉ cap.functions) :
    setPinFunction chip cfg pinName func = (cfg, []) := by
  have hfns := getPinFunctions_of_cap chip pinName cap hcap
  simp [setPinFunction, hne, hfns, hmem]

/-- Witness for the amended C7 on the fixed pin `VDD` of `chipGood`. -/
theorem c7_fixed_pin_reject_amended_w :
    setPinFunction chipGood [("PA9", "USART1_TX")] "VDD" "USART1_TX" =
      ([("PA9", "USART1_TX")], []) :=
  c7_fixed_pin_reject_amended chipGood [("PA9", "USART1_TX")] "VDD" "USART1_TX"
    ⟨"power", true, ["VDD"]⟩ (by decide) (by decide) (by decide) (by decide)

/-- C8 counterexample: the claim says the prefix rule is
case-insensitive, so `"vdd1"` would classify as power; the code's
checks are case-sensitive and classify `"vdd1"` as gpio. -/
theorem c8_classification_case_sensitive :
    getPinType "VDD1" = "power" ∧ getPinType "vdd1" = "gpio" := by
  refine ⟨by decide, by decide⟩

/-- Modelled from the spec: the pin-type prefix rule of §3, amended to
be case-sensitive (`VDD*`/`VBAT` → power; `VSS*`/`GND`/`VSSA` → gnd;
`NRST` → reset; `BOOT*` → boot; else gpio), written clause by clause in
the spec's order. -/
def specPinTypeRule (name : String) : String :=
  if strStartsWith name "VDD" = true then "power"
  else if name = "VBAT" then "power"
  else if strStartsWith name "VSS" = true then "gnd"
  else if name = "GND" then "gnd"
  else if name = "VSSA" then "gnd"
  else if name = "NRST" then "reset"
  else if strStartsWith name "BOOT" = true then "boot"
  else "gpio"

/-- C8 amended: `getPinType` implements exactly the spec's prefix rule
with case-sensitive matching (upper-case literals only); any lower-case
variant such as `"vdd1"` falls through to gpio. -/
theorem c8_prefix_rule_amended : ∀ name, getPinType name = specPinTypeRule name := by
  intro name
  simp only [getPinType, specPinTypeRule]
  split_ifs <;> simp_all

/-- C9 counterexample: a saved table entry for a pin that does not even
exist on the loaded chip is installed verbatim by `loadChip` rather
than dropped. -/
theorem c9_stale_entry_not_dropped :
    (loadChip scenarioBRaw (some [("PXX", "FOO")])).pinConfigurations = [("PXX", "FOO")]
    ∧ getPinFunctions chipB "PXX" = []
    ∧ (loadChip scenarioBRaw (some [("PXX", "FOO")])).currentChip = some chipB := by
  refine ⟨by decide, by decide, by decide⟩

/-- C9 amended: `loadChip` performs no validation of the saved table
against the loaded chip's capabilities — a parsed saved table is
installed verbatim, entries for unknown pins or unsupported functions
included, and a missing or unparseable one resets the table to empty;
the load itself is total (never crashes). -/
theorem c9_load_amended : ∀ (raw : ChipData) (saved : Config),
    (loadChip raw (some saved)).pinConfigurations = saved
    ∧ (loadChip raw none).pinConfigurations = [] := by
  intro raw saved
  exact ⟨rfl, rfl⟩

/-- C10. During the linkage pass, a sibling signal whose full and short
identifiers are both missing from its target pin's capability list
contributes neither a migration nor a conflict (the loop body returns
the accumulator unchanged); consequently the assign can still commit
with the sibling left on its old pin, as the concrete run on
`chipSkip` shows: `RX` stays on `PA10` under scheme 0 while `TX` moves
to `PB6` under scheme 1, with no conflict reported. -/
theorem c10_unmigratable_sibling_skipped :
    (∀ (chip : ChipData) (base : Config) (periphName signalName sfx : String)
        (acc : List (String × String) × List Conflict) (sig tp : String),
        sig ≠ signalName →
        periphName ++ "_" ++ sig ++ sfx ∉ getPinFunctions chip tp →
        sig ++ sfx ∉ getPinFunctions chip tp →
        linkStep chip base periphName signalName sfx acc (sig, tp) = acc)
    ∧ setPinFunction chipSkip [("PA10", "USART1_RX")] "PB6" "USART1_TX_1"
        = ([("PA10", "USART1_RX"), ("PB6", "USART1_TX_1")], []) := by
  constructor
  · intro chip base periphName signalName sfx acc sig tp hne h1 h2
    simp [linkStep, targetFuncFor, hne, h1, h2]
  · decide

/-- Witness for C10's general conjunct at the `RX` sibling of
`chipSkip`. -/
theorem c10_unmigratable_sibling_skipped_w :
    linkStep chipSkip [("PA10", "USART1_RX")] "USART1" "TX" "_1" ([], []) ("RX", "PB7")
      = ([], []) :=
  c10_unmigratable_sibling_skipped.1 chipSkip [("PA10", "USART1_RX")] "USART1" "TX" "_1"
    ([], []) "RX" "PB7" (by decide) (by decide) (by decide)

/-! Membership lemmas for the table operations, leading to the
capability-containment invariant (C4). -/

/-- Every entry of `setV l k v` is the written entry or an entry of
`l`. -/
theorem mem_setV {α : Type} {l : List (String × α)} {k : String} {v : α}
    {e : String × α} (h : e ∈ setV l k v) : e = (k, v) ∨ e ∈ l := by
  induction l with
  | nil =>
    simp only [setV, List.mem_singleton] at h
    exact Or.inl h
  | cons hd t ih =>
    obtain ⟨q, w⟩ := hd
    simp only [setV] at h
    by_cases hq : q = k
    · rw [if_pos hq] at h
      rcases List.mem_cons.mp h with h1 | h2
      · exact Or.inl (by rw [h1, hq])
      · exact Or.inr (List.mem_cons_of_mem _ h2)
    · rw [if_neg hq] at h
      rcases List.mem_cons.mp h with h1 | h2
      · exact Or.inr (by rw [h1]; exact List.mem_cons_self _ _)
      · rcases ih h2 with h3 | h4
        · exact Or.inl h3
        · exact Or.inr (List.mem_cons_of_mem _ h4)

/-- Entries surviving a fold of migration writes come from the writes
or the starting table. -/
theorem mem_foldl_setV {ops : List (String × String)} {c0 : Config} {e : String × String}
    (h : e ∈ ops.foldl (fun c op => setV c op.1 op.2) c0) : e ∈ ops ∨ e ∈ c0 := by
  induction ops generalizing c0 with
  | nil => exact Or.inr h
  | cons op t ih =>
    simp only [List.foldl_cons] at h
    rcases ih h with h1 | h2
    · exact Or.inl (List.mem_cons_of_mem _ h1)
    · rcases mem_setV h2 with h3 | h4
      · left
        rw [h3, Prod.mk.eta]
        exact List.mem_cons_self _ _
      · exact Or.inr h4

/-- A migration-clearing step only removes entries. -/
theorem mem_delForOp {chip : ChipData} {c : Config} {op e : String × String}
    (h : e ∈ delForOp chip c op) : e ∈ c := by
  unfold delForOp at h
  cases hcx : findFunctionContext chip op.2 none with
  | none => rw [hcx] at h; exact h
  | some cx => rw [hcx] at h; exact List.mem_of_mem_filter h

/-- The fold of migration-clearing steps only removes entries. -/
theorem mem_foldl_delForOp {chip : ChipData} {ops : List (String × String)} {c0 : Config}
    {e : String × String} (h : e ∈ ops.foldl (delForOp chip) c0) : e ∈ c0 := by
  induction ops generalizing c0 with
  | nil => exact h
  | cons op t ih => exact mem_delForOp (ih h)

/-- A non-empty chosen target function is a member of the target pin's
capability list. -/
theorem targetFuncFor_mem {chip : ChipData} {periphName sfx sig tp : String}
    (h : targetFuncFor chip periphName sfx sig tp ≠ "") :
    targetFuncFor chip periphName sfx sig tp ∈ getPinFunctions chip tp := by
  unfold targetFuncFor at h ⊢
  by_cases h1 : periphName ++ "_" ++ sig ++ sfx ∈ getPinFunctions chip tp
  · simpa [h1] using h1
  · by_cases h2 : sig ++ sfx ∈ getPinFunctions chip tp
    · simpa [h1, h2] using h2
    · simp [h1, h2] at h

/-- Operations scheduled by one linkage-loop body: either already in
the accumulator, or the chosen non-empty target function for this
sibling entry. -/
theorem mem_linkStep_ops {chip : ChipData} {base : Config} {periphName signalName sfx : String}
    {acc : List (String × String) × List Conflict} {e op : String × String}
    (h : op ∈ (linkStep chip base periphName signalName sfx acc e).1) :
    op ∈ acc.1 ∨
      (e.1 ≠ signalName ∧ targetFuncFor chip periphName sfx e.1 e.2 ≠ "" ∧
        op = (e.2, targetFuncFor chip periphName sfx e.1 e.2)) := by
  unfold linkStep at h
  by_cases h1 : e.1 = signalName
  · rw [if_pos h1] at h; exact Or.inl h
  · rw [if_neg h1] at h
    by_cases h2 : targetFuncFor chip periphName sfx e.1 e.2 = ""
    · rw [if_pos h2] at h; exact Or.inl h
    · rw [if_neg h2] at h
      by_cases h3 : signalActive chip base periphName e.1 = true
      · rw [if_pos h3] at h
        cases hv : getV base e.2 with
        | none =>
          simp only [hv] at h
          rcases List.mem_append.mp h with h4 | h5
          · exact Or.inl h4
          · exact Or.inr ⟨h1, h2, List.mem_singleton.mp h5⟩
        | some owner =>
          simp only [hv] at h
          by_cases h6 : owner = "" ∨ owner = targetFuncFor chip periphName sfx e.1 e.2
          · rw [if_pos h6] at h
            rcases List.mem_append.mp h with h4 | h5
            · exact Or.inl h4
            · exact Or.inr ⟨h1, h2, List.mem_singleton.mp h5⟩
          · rw [if_neg h6] at h
            exact Or.inl h
      · rw [if_neg h3] at h; exact Or.inl h

/-- Operations collected by the linkage fold: either already in the
accumulator or generated by some sibling entry of the scheme map. -/
theorem mem_foldl_linkStep_ops {chip : ChipData} {base : Config}
    {periphName signalName sfx : String} {tm : Pinmap}
    {acc : List (String × String) × List Conflict} {op : String × String}
    (h : op ∈ (tm.foldl (linkStep chip base periphName signalName sfx) acc).1) :
    op ∈ acc.1 ∨ ∃ sig tp, (sig, tp) ∈ tm ∧ sig ≠ signalName ∧
      targetFuncFor chip periphName sfx sig tp ≠ "" ∧
      op = (tp, targetFuncFor chip periphName sfx sig tp) := by
  induction tm generalizing acc with
  | nil => exact Or.inl h
  | cons e t ih =>
    simp only [List.foldl_cons] at h
    rcases ih h with h1 | h2
    · rcases mem_linkStep_ops h1 with h3 | ⟨h4, h5, h6⟩
      · exact Or.inl h3
      · exact Or.inr ⟨e.1, e.2, by rw [Prod.mk.eta]; exact List.mem_cons_self _ _, h4, h5, h6⟩
    · obtain ⟨sig, tp, hmem, h4, h5, h6⟩ := h2
      exact Or.inr ⟨sig, tp, List.mem_cons_of_mem _ hmem, h4, h5, h6⟩

/-- Operations of the linkage pass are generated by sibling entries. -/
theorem mem_linkagePass_ops {chip : ChipData} {base : Config}
    {periphName signalName sfx : String} {tm : Pinmap} {op : String × String}
    (h : op ∈ (linkagePass chip base periphName signalName sfx tm).1) :
    ∃ sig tp, (sig, tp) ∈ tm ∧ sig ≠ signalName ∧
      targetFuncFor chip periphName sfx sig tp ≠ "" ∧
      op = (tp, targetFuncFor chip periphName sfx sig tp) := by
  rcases @mem_foldl_linkStep_ops chip base periphName signalName sfx tm ([], []) op h with h1 | h2
  · simp at h1
  · exact h2

/-- Every entry of the table after one `setPinFunction` call was
already in the table or is a function of its pin's capability list. -/
theorem mem_setPinFunction_cases {chip : ChipData} {cfg : Config} {pinName func : String}
    {e : String × String} (h : e ∈ (setPinFunction chip cfg pinName func).1) :
    e ∈ cfg ∨ e.2 ∈ getPinFunctions chip e.1 := by
  by_cases hf : func = ""
  · simp only [setPinFunction, if_pos hf] at h
    exact Or.inl (List.mem_of_mem_filter h)
  · by_cases hs : func ∈ getPinFunctions chip pinName
    · cases hctx : findFunctionContext chip func (some pinName) with
      | none =>
        simp only [setPinFunction, if_neg hf, hctx] at h
        rw [if_neg (by simpa using hs)] at h
        rcases mem_setV h with h1 | h2
        · right; rw [h1]; exact hs
        · exact Or.inl h2
      | some ctx =>
        have hbase : ∀ x, x ∈ exclPass chip cfg pinName ctx.periphName ctx.signalName →
            x ∈ cfg := fun x hx => List.mem_of_mem_filter hx
        cases hms : ctx.periphDef.pinmaps with
        | none =>
          simp only [setPinFunction, if_neg hf, hctx, hms] at h
          rw [if_neg (by simpa using hs)] at h
          rcases mem_setV h with h1 | h2
          · right; rw [h1]; exact hs
          · exact Or.inl (hbase _ h2)
        | some ms =>
          cases hpm : ms.get? ctx.mapIndex with
          | none =>
            simp only [setPinFunction, if_neg hf, hctx, hms, hpm] at h
            rw [if_neg (by simpa using hs)] at h
            rcases mem_setV h with h1 | h2
            · right; rw [h1]; exact hs
            · exact Or.inl (hbase _ h2)
          | some tm =>
            by_cases hc :
              (linkagePass chip (exclPass chip cfg pinName ctx.periphName ctx.signalName)
                ctx.periphName ctx.signalName (suffixOf ctx.mapIndex) tm).2 = []
            · simp only [setPinFunction, if_neg hf, hctx, hms, hpm, hc, if_pos,
                if_neg (not_not_intro hc)] at h
              rw [if_neg (by simpa using hs)] at h
              rcases mem_setV h with h1 | h2
              · right; rw [h1]; exact hs
              · rcases mem_foldl_setV h2 with h3 | h4
                · obtain ⟨sig, tp, _, _, h5, h6⟩ := mem_linkagePass_ops h3
                  right
                  rw [h6]
                  exact targetFuncFor_mem h5
                · exact Or.inl (hbase _ (mem_foldl_delForOp h4))
            · simp only [setPinFunction, if_neg hf, hctx, hms, hpm,
                if_pos (by simpa using hc)] at h
              rw [if_neg (by simpa using hs)] at h
              exact Or.inl h
    · simp only [setPinFunction, if_neg hf] at h
      rw [if_pos (by simpa using hs)] at h
      exact Or.inl h

/-- C4. Capability containment: starting from the empty table, every
committed entry of every table reachable by assign/clear operations is
a member of its pin's capability functions list — the directly
requested function is guarded by the membership check and every
migrated function is chosen from the target pin's list. -/
theorem c4_capability_containment (chip : ChipData) (ops : List (String × String))
    (p f : String) (h : (p, f) ∈ applyOps chip ops) : f ∈ getPinFunctions chip p := by
  suffices hgen : ∀ (l : List (String × String)) (c0 : Config),
      (∀ x : String × String, x ∈ c0 → x.2 ∈ getPinFunctions chip x.1) →
      ∀ x : String × String, x ∈ l.foldl (fun cfg op => (setPinFunction chip cfg op.1 op.2).1) c0 →
        x.2 ∈ getPinFunctions chip x.1 by
    exact hgen ops [] (by simp) (p, f) h
  intro l
  induction l with
  | nil => intro c0 h0 x hx; exact h0 x hx
  | cons op t ih =>
    intro c0 h0 x hx
    refine ih _ ?_ x hx
    intro y hy
    rcases mem_setPinFunction_cases hy with h1 | h2
    · exact h0 y h1
    · exact h2

/-- Witness for C4: after the Scenario B sequence on the
suffix-correct chip, the migrated entry `PB7 ↦ USART1_RX_1` is in
`PB7`'s capability list. -/
theorem c4_capability_containment_w : "USART1_RX_1" ∈ getPinFunctions chipGood "PB7" :=
  c4_capability_containment chipGood
    [("PA9", "USART1_TX"), ("PA10", "USART1_RX"), ("PB6", "USART1_TX_1")]
    "PB7" "USART1_RX_1" (by decide)

/-! Idempotence of the inference compiler (C6). -/

/-- Upserting never empties an association list. -/
theorem setV_ne_nil {α : Type} (l : List (String × α)) (k : String) (v : α) :
    setV l k v ≠ [] := by
  cases l with
  | nil => simp [setV]
  | cons hd t =>
    obtain ⟨q, w⟩ := hd
    simp only [setV]
    split <;> simp

/-- Processing an instance always records a normalized peripheral. -/
theorem processInst_norm_ne (ck cd : String) (st : InferState) (i : String × RawInst) :
    (processInst ck cd st i).2 ≠ [] :=
  setV_ne_nil _ _ _

/-- A fold of instance steps keeps the normalized table non-empty. -/
theorem foldl_processInst_norm_ne (ck cd : String) (insts : List (String × RawInst))
    (st : InferState) (h : st.2 ≠ []) :
    (insts.foldl (processInst ck cd) st).2 ≠ [] := by
  induction insts generalizing st with
  | nil => exact h
  | cons i t ih => exact ih _ (processInst_norm_ne ck cd st i)

/-- A category step that leaves the normalized table empty did nothing
(its category had no instances). -/
theorem processCat_norm_nil (st : InferState) (c : String × Periph)
    (h : (processCat st c).2 = []) : processCat st c = st := by
  unfold processCat at h ⊢
  cases hc : c.2.insts with
  | nil => rfl
  | cons i t =>
    rw [hc] at h
    simp only [List.foldl_cons] at h
    exact absurd h (foldl_processInst_norm_ne _ _ t _ (processInst_norm_ne _ _ st i))

/-- If the whole peripheral walk produces an empty normalized table,
it produced nothing at all. -/
theorem foldl_processCat_norm_nil (rps : List (String × Periph)) (init : InferState)
    (h : (rps.foldl processCat init).2 = []) :
    rps.foldl processCat init = init ∧ init.2 = [] := by
  induction rps generalizing init with
  | nil => exact ⟨rfl, h⟩
  | cons c t ih =>
    simp only [List.foldl_cons] at h ⊢
    obtain ⟨h1, h2⟩ := ih (processCat init c) h
    have h3 := processCat_norm_nil init c h2
    rw [h1, h3]
    rw [h3] at h2
    exact ⟨rfl, h2⟩

/-- Every normalized peripheral value the walk records carries a
`pinmaps` field. -/
theorem foldl_processInst_norm_some (ck cd : String) (insts : List (String × RawInst))
    (st : InferState) (h : ∀ e ∈ st.2, e.2.pinmaps.isSome = true) :
    ∀ e ∈ (insts.foldl (processInst ck cd) st).2, e.2.pinmaps.isSome = true := by
  induction insts generalizing st with
  | nil => exact h
  | cons i t ih =>
    refine ih _ ?_
    intro e he
    rcases mem_setV he with h1 | h2
    · rw [h1]; rfl
    · exact h e h2

/-- Category-level version of `foldl_processInst_norm_some`. -/
theorem foldl_processCat_norm_some (rps : List (String × Periph)) (init : InferState)
    (h : ∀ e ∈ init.2, e.2.pinmaps.isSome = true) :
    ∀ e ∈ (rps.foldl processCat init).2, e.2.pinmaps.isSome = true := by
  induction rps generalizing init with
  | nil => exact h
  | cons c t ih =>
    refine ih _ ?_
    exact foldl_processInst_norm_some _ _ _ _ h

/-- C6. The inference compiler is idempotent: feeding its own output
back in reproduces the same normalized chip unchanged.  A normalized
output is caught by the already-normalized shortcut (its first
peripheral carries `pinmaps`, or, with no peripherals, its pin table is
non-empty); the remaining completely-empty output recomputes to
itself. -/
theorem c6_inference_idempotent :
    ∀ raw : ChipData, inferChipData (inferChipData raw) = inferChipData raw := by
  intro raw
  by_cases hold : inferOld raw = true
  · have h1 : inferChipData raw = raw := by rw [inferChipData, if_pos hold]
    rw [h1]
    exact h1
  · have h1 : inferChipData raw =
        { meta := raw.meta, package := raw.package,
          pins := some ((pinSort
            (((match raw.package with
                | some pk => pk.pins.map PhysPin.name
                | none => []).foldl addUniq [] ++
              ((raw.peripherals.getD []).foldl processCat ([], [])).1.map Prod.fst).foldl
              addUniq [])).map
            (fun n => (n, buildCap ((raw.peripherals.getD []).foldl processCat ([], [])).1 n)))
          peripherals := some ((raw.peripherals.getD []).foldl processCat ([], [])).2 } := by
      rw [inferChipData, if_neg hold]
    rw [h1]
    cases hn : ((raw.peripherals.getD []).foldl processCat ([], [])).2 with
    | nil =>
      have hst := (foldl_processCat_norm_nil _ _ hn).1
      rw [hst]
      generalize hL : (pinSort
          (((match raw.package with
              | some pk => pk.pins.map PhysPin.name
              | none => []).foldl addUniq [] ++
            (([], []) : InferState).1.map Prod.fst).foldl addUniq [])).map
          (fun n => (n, buildCap (([], []) : InferState).1 n)) = L
      by_cases hpins : L = []
      · have hold2 : inferOld
            { meta := raw.meta, package := raw.package,
              pins := some L
              peripherals := some (([], []) : InferState).2 } = false := by
          simp [inferOld, hpins]
        rw [inferChipData, if_neg (by simp [hold2])]
        rw [← hL]
        rfl
      · have hold2 : inferOld
            { meta := raw.meta, package := raw.package,
              pins := some L
              peripherals := some (([], []) : InferState).2 } = true := by
          simp [inferOld, hpins]
        rw [inferChipData, if_pos hold2]
    | cons hd rest =>
      have hprop := foldl_processCat_norm_some (raw.peripherals.getD []) ([], [])
        (by intro e he; simp at he)
      rw [hn] at hprop
      have hhd := hprop hd (List.mem_cons_self _ _)
      rw [inferChipData, if_pos (by simp [inferOld, hhd])]

/-! Exclusivity invariant (C3): scheme-entry view of the peripheral
index and soundness/completeness of the context resolver. -/

/-- One `(peripheral, scheme index, signal, pin)` entry of the loaded
peripheral index. -/
structure SchemeEntry where
  periph : String
  idx : Nat
  sig : String
  pin : String
deriving DecidableEq

/-- Full identifier of a scheme entry (`periph_signal` plus scheme
suffix). -/
def fullOf (e : SchemeEntry) : String :=
  e.periph ++ "_" ++ e.sig ++ suffixOf e.idx

/-- Short identifier of a scheme entry (`signal` plus scheme suffix). -/
def shortOf (e : SchemeEntry) : String :=
  e.sig ++ suffixOf e.idx

/-- Scheme entries of one peripheral's pinmaps, with the scheme index
starting at `i0`. -/
def mapsEntries (pn : String) : List Pinmap → Nat → List SchemeEntry
  | [], _ => []
  | m :: rest, i => m.map (fun e => ⟨pn, i, e.1, e.2⟩) ++ mapsEntries pn rest (i + 1)

/-- Scheme entries of one peripheral (none when the `pinmaps` field is
absent, matching the resolver's skip). -/
def periphEntries (pn : String) (d : Periph) : List SchemeEntry :=
  match d.pinmaps with
  | none => []
  | some ms => mapsEntries pn ms 0

/-- All scheme entries of the loaded chip, in resolver iteration
order. -/
def chipEntries (chip : ChipData) : List SchemeEntry :=
  (chip.peripherals.getD []).foldr (fun kv acc => periphEntries kv.1 kv.2 ++ acc) []

/-- Introduction for `mapsEntries` membership. -/
theorem mem_mapsEntries_intro {n : String} {ms : List Pinmap} {a j : Nat} {m : Pinmap}
    {sig mp : String} (hj : ms.get? j = some m) (hm : (sig, mp) ∈ m) :
    (⟨n, a + j, sig, mp⟩ : SchemeEntry) ∈ mapsEntries n ms a := by
  induction ms generalizing a j with
  | nil => simp at hj
  | cons m0 rest ih =>
    cases j with
    | zero =>
      simp only [List.get?] at hj
      obtain rfl : m0 = m := by injection hj
      simp only [mapsEntries, List.mem_append]
      left
      refine List.mem_map.mpr ⟨(sig, mp), hm, ?_⟩
      rfl
    | succ j2 =>
      simp only [List.get?] at hj
      have hih := ih (a := a + 1) hj
      simp only [mapsEntries, List.mem_append]
      right
      have heq : a + 1 + j2 = a + (j2 + 1) := by omega
      rw [heq] at hih
      exact hih

/-- Elimination for `mapsEntries` membership. -/
theorem mem_mapsEntries_elim {n : String} {ms : List Pinmap} {a : Nat} {e : SchemeEntry}
    (h : e ∈ mapsEntries n ms a) :
    e.periph = n ∧ ∃ j m, ms.get? j = some m ∧ e.idx = a + j ∧ (e.sig, e.pin) ∈ m := by
  induction ms generalizing a with
  | nil => simp [mapsEntries] at h
  | cons m0 rest ih =>
    simp only [mapsEntries, List.mem_append] at h
    rcases h with h1 | h2
    · obtain ⟨⟨s, p⟩, hmem, heq⟩ := List.mem_map.mp h1
      refine ⟨by rw [← heq], 0, m0, rfl, by rw [← heq]; simp, by rw [← heq]; exact hmem⟩
    · obtain ⟨hpn, j, m, hj, hidx, hmem⟩ := ih h2
      refine ⟨hpn, j + 1, m, by simpa using hj, by omega, hmem⟩

/-- Introduction for membership in the folded entry list. -/
theorem mem_foldr_entries_intro {ps : List (String × Periph)} {pn : String} {d : Periph}
    {e : SchemeEntry} (hps : (pn, d) ∈ ps) (he : e ∈ periphEntries pn d) :
    e ∈ ps.foldr (fun kv acc => periphEntries kv.1 kv.2 ++ acc) [] := by
  induction ps with
  | nil => simp at hps
  | cons kv rest ih =>
    simp only [List.foldr_cons, List.mem_append]
    rcases List.mem_cons.mp hps with h1 | h2
    · left
      rw [← h1]
      exact he
    · right
      exact ih h2

/-- Elimination for membership in the folded entry list. -/
theorem mem_foldr_entries_elim {ps : List (String × Periph)} {e : SchemeEntry}
    (h : e ∈ ps.foldr (fun kv acc => periphEntries kv.1 kv.2 ++ acc) []) :
    ∃ pd : String × Periph, pd ∈ ps ∧ e ∈ periphEntries pd.1 pd.2 := by
  induction ps with
  | nil => simp at h
  | cons kv rest ih =>
    simp only [List.foldr_cons, List.mem_append] at h
    rcases h with h1 | h2
    · exact ⟨kv, List.mem_cons_self _ _, h1⟩
    · obtain ⟨pd, hpd, hpe⟩ := ih h2
      exact ⟨pd, List.mem_cons_of_mem _ hpd, hpe⟩

/-- Introduction for `chipEntries` membership. -/
theorem mem_chipEntries_intro {chip : ChipData} {n : String} {d : Periph}
    {e : SchemeEntry} (hps : (n, d) ∈ chip.peripherals.getD [])
    (he : e ∈ periphEntries n d) : e ∈ chipEntries chip :=
  mem_foldr_entries_intro hps he

/-- Elimination for `chipEntries` membership. -/
theorem mem_chipEntries_elim {chip : ChipData} {e : SchemeEntry}
    (h : e ∈ chipEntries chip) :
    ∃ pd : String × Periph, pd ∈ chip.peripherals.getD [] ∧ e ∈ periphEntries pd.1 pd.2 :=
  mem_foldr_entries_elim h

/-- Hypothesis of the amended exclusivity claim forced by the C3
counterexample: every capability function of every pin that resolves at
all also resolves with that pin as the candidate constraint.  (The
compiler's missing scheme suffix violates exactly this: `USART1_TX`
sits in `PB6`'s capability list but only resolves at `PA9`.) -/
def ResolveTotal (chip : ChipData) : Prop :=
  ∀ pc ∈ chip.pins.getD [], ∀ f ∈ (pc : String × PinCapability).2.functions,
    findFunctionContext chip f (some pc.1) = none → findFunctionContext chip f none = none

/-- Wellformedness side condition, scoped to the names the engine can
actually be asked to assign: every function name offered in some pin's
capability list is unambiguous — all scheme entries it matches (as full
or short identifier) agree on `(peripheral, signal)`.  Names that no
capability list offers are unrestricted, so ordinary multi-peripheral
chips whose bare short names collide (both USART1 and USART2 have a
`TX`) satisfy this as long as their capability lists carry the
prefixed identifiers. -/
def CapUnambiguous (chip : ChipData) : Prop :=
  ∀ pc ∈ chip.pins.getD [], ∀ f ∈ (pc : String × PinCapability).2.functions,
    ∀ e1 ∈ chipEntries chip, ∀ e2 ∈ chipEntries chip,
      (f = fullOf e1 ∨ f = shortOf e1) → (f = fullOf e2 ∨ f = shortOf e2) →
      e1.periph = e2.periph ∧ e1.sig = e2.sig

/-- Wellformedness side condition: within one mapping scheme the signal
keys are unique (JS object keys always are). -/
def NodupSigKeys (chip : ChipData) : Prop :=
  ∀ pd ∈ chip.peripherals.getD [], ∀ m ∈ (pd : String × Periph).2.pinmaps.getD [],
    (m.map Prod.fst).Nodup

/-- Exclusivity of a table: no two distinct pins hold functions that
resolve (without candidate constraint) to the same
`(peripheral, signal)` pair. -/
def ExclusiveTable (chip : ChipData) (cfg : Config) : Prop :=
  ∀ p q fp fq pr, (p, fp) ∈ cfg → (q, fq) ∈ cfg →
    pairOf chip fp = some pr → pairOf chip fq = some pr → p = q

/-- Soundness of the resolver's inner loop: a match names an entry of
the map, via the full or the short pattern, honoring the candidate
constraint. -/
theorem matchSig_sound {pN sfx fn : String} {cand : Option String} {m : Pinmap}
    {sig : String} (h : matchSig pN sfx fn cand m = some sig) :
    ∃ mp, (sig, mp) ∈ m ∧ (fn = pN ++ "_" ++ sig ++ sfx ∨ fn = sig ++ sfx) ∧
      (∀ pn, cand = some pn → mp = pn) := by
  induction m with
  | nil => simp [matchSig] at h
  | cons e rest ih =>
    obtain ⟨s, mp⟩ := e
    simp only [matchSig] at h
    by_cases h1 : skipEntry cand mp = true
    · rw [if_pos h1] at h
      obtain ⟨mp2, hmem, hname, hcand⟩ := ih h
      exact ⟨mp2, List.mem_cons_of_mem _ hmem, hname, hcand⟩
    · rw [if_neg h1] at h
      by_cases h2 : fn = pN ++ "_" ++ s ++ sfx
      · rw [if_pos h2] at h
        obtain rfl : s = sig := by injection h
        refine ⟨mp, List.mem_cons_self _ _, Or.inl h2, ?_⟩
        intro pn hpn
        rw [hpn] at h1
        simpa [skipEntry] using h1
      · rw [if_neg h2] at h
        by_cases h3 : fn = s ++ sfx
        · rw [if_pos h3] at h
          obtain rfl : s = sig := by injection h
          refine ⟨mp, List.mem_cons_self _ _, Or.inr h3, ?_⟩
          intro pn hpn
          rw [hpn] at h1
          simpa [skipEntry] using h1
        · rw [if_neg h3] at h
          obtain ⟨mp2, hmem, hname, hcand⟩ := ih h
          exact ⟨mp2, List.mem_cons_of_mem _ hmem, hname, hcand⟩

/-- Completeness of the resolver's inner loop. -/
theorem matchSig_complete {pN sfx fn : String} {cand : Option String} {m : Pinmap}
    {sig mp : String} (hmem : (sig, mp) ∈ m)
    (hname : fn = pN ++ "_" ++ sig ++ sfx ∨ fn = sig ++ sfx)
    (hcand : cand = none ∨ cand = some mp) :
    (matchSig pN sfx fn cand m).isSome = true := by
  induction m with
  | nil => simp at hmem
  | cons e rest ih =>
    obtain ⟨s, mp2⟩ := e
    simp only [matchSig]
    rcases List.mem_cons.mp hmem with h1 | h2
    · injection h1 with hA hB
      have hskip : skipEntry cand mp2 = false := by
        rcases hcand with hc | hc <;> simp [hc, skipEntry, hB]
      rw [if_neg (by simp [hskip])]
      by_cases hf : fn = pN ++ "_" ++ s ++ sfx
      · rw [if_pos hf]
        simp
      · rw [if_neg hf]
        rcases hname with hn | hn
        · rw [hA] at hn
          exact absurd hn hf
        · rw [if_pos (by rw [← hA]; exact hn)]
          simp
    · by_cases hs1 : skipEntry cand mp2 = true
      · rw [if_pos hs1]
        exact ih h2
      · rw [if_neg hs1]
        by_cases hs2 : fn = pN ++ "_" ++ s ++ sfx
        · rw [if_pos hs2]; simp
        · rw [if_neg hs2]
          by_cases hs3 : fn = s ++ sfx
          · rw [if_pos hs3]; simp
          · rw [if_neg hs3]
            exact ih h2

/-- Soundness of the resolver's pinmap loop. -/
theorem scanMaps_sound {pN fn : String} {cand : Option String} {ms : List Pinmap}
    {a : Nat} {sig : String} {i : Nat}
    (h : scanMaps pN fn cand ms a = some (sig, i)) :
    ∃ j m, ms.get? j = some m ∧ i = a + j ∧
      matchSig pN (suffixOf i) fn cand m = some sig := by
  induction ms generalizing a with
  | nil => simp [scanMaps] at h
  | cons m0 rest ih =>
    simp only [scanMaps] at h
    cases hm : matchSig pN (suffixOf a) fn cand m0 with
    | some s2 =>
      rw [hm] at h
      have hpair : s2 = sig ∧ a = i := by
        have h4 : (s2, a) = (sig, i) := by injection h
        constructor <;> · injection h4 <;> simp_all
      obtain ⟨rfl, rfl⟩ := hpair
      exact ⟨0, m0, rfl, by omega, hm⟩
    | none =>
      rw [hm] at h
      obtain ⟨j, m, hj, hi, hmatch⟩ := ih (a := a + 1) h
      exact ⟨j + 1, m, by simpa using hj, by omega, hmatch⟩

/-- Completeness of the resolver's pinmap loop. -/
theorem scanMaps_complete {pN fn : String} {cand : Option String} {ms : List Pinmap}
    {a j : Nat} {m : Pinmap} (hj : ms.get? j = some m)
    (hmatch : (matchSig pN (suffixOf (a + j)) fn cand m).isSome = true) :
    (scanMaps pN fn cand ms a).isSome = true := by
  induction ms generalizing a j with
  | nil => simp at hj
  | cons m0 rest ih =>
    simp only [scanMaps]
    cases j with
    | zero =>
      simp only [List.get?] at hj
      obtain rfl : m0 = m := by injection hj
      cases hm : matchSig pN (suffixOf a) fn cand m0 with
      | none =>
        rw [show a + 0 = a from rfl, hm] at hmatch
        simp at hmatch
      | some s => simp
    | succ j2 =>
      cases hm : matchSig pN (suffixOf a) fn cand m0 with
      | some s => simp
      | none =>
        refine ih (a := a + 1) (j := j2) (by simpa using hj) ?_
        have heq : a + (j2 + 1) = a + 1 + j2 := by omega
        rw [heq] at hmatch
        exact hmatch

/-- Soundness of the resolver's peripheral loop. -/
theorem scanPeriphs_sound {fn : String} {cand : Option String}
    {ps : List (String × Periph)} {c : Ctx} (h : scanPeriphs fn cand ps = some c) :
    (c.periphName, c.periphDef) ∈ ps ∧ ∃ ms, c.periphDef.pinmaps = some ms ∧
      scanMaps c.periphName fn cand ms 0 = some (c.signalName, c.mapIndex) := by
  induction ps with
  | nil => simp [scanPeriphs] at h
  | cons kv rest ih =>
    obtain ⟨pn, d⟩ := kv
    simp only [scanPeriphs] at h
    cases hd : d.pinmaps with
    | none =>
      simp only [hd] at h
      obtain ⟨h1, ms, h2, h3⟩ := ih h
      exact ⟨List.mem_cons_of_mem _ h1, ms, h2, h3⟩
    | some ms =>
      simp only [hd] at h
      cases hsm : scanMaps pn fn cand ms 0 with
      | some si =>
        simp only [hsm] at h
        obtain rfl : (⟨pn, si.1, si.2, d⟩ : Ctx) = c := Option.some.inj h
        refine ⟨List.mem_cons_self _ _, ms, hd, ?_⟩
        rw [hsm]
      | none =>
        simp only [hsm] at h
        obtain ⟨h1, ms2, h2, h3⟩ := ih h
        exact ⟨List.mem_cons_of_mem _ h1, ms2, h2, h3⟩

/-- Completeness of the resolver's peripheral loop. -/
theorem scanPeriphs_complete {fn : String} {cand : Option String}
    {ps : List (String × Periph)} {pn : String} {d : Periph} {ms : List Pinmap}
    (hmem : (pn, d) ∈ ps) (hd : d.pinmaps = some ms)
    (hsm : (scanMaps pn fn cand ms 0).isSome = true) :
    (scanPeriphs fn cand ps).isSome = true := by
  induction ps with
  | nil => simp at hmem
  | cons kv rest ih =>
    obtain ⟨pn2, d2⟩ := kv
    simp only [scanPeriphs]
    rcases List.mem_cons.mp hmem with h1 | h2
    · obtain ⟨rfl, rfl⟩ : pn = pn2 ∧ d = d2 := by
        constructor <;> · injection h1 <;> simp_all
      rw [hd]
      cases hs : scanMaps pn fn cand ms 0 with
      | none => rw [hs] at hsm; simp at hsm
      | some si => simp [hs]
    · cases hd2 : d2.pinmaps with
      | none => simp only [hd2]; exact ih h2
      | some ms2 =>
        cases hs : scanMaps pn2 fn cand ms2 0 with
        | some si => simp [hd2, hs]
        | none => simp only [hd2, hs]; exact ih h2

/-- Soundness of `findFunctionContext`: a resolved context names a
scheme entry whose identifier (full or short pattern) is the queried
function and whose pin honors the candidate constraint. -/
theorem findCtx_sound {chip : ChipData} {fn : String} {cand : Option String} {c : Ctx}
    (h : findFunctionContext chip fn cand = some c) :
    ∃ e : SchemeEntry, e ∈ chipEntries chip ∧ e.periph = c.periphName ∧
      e.idx = c.mapIndex ∧ e.sig = c.signalName ∧
      (fn = fullOf e ∨ fn = shortOf e) ∧ (∀ pn, cand = some pn → e.pin = pn) := by
  unfold findFunctionContext at h
  cases hps : chip.peripherals with
  | none => rw [hps] at h; simp at h
  | some ps =>
    rw [hps] at h
    obtain ⟨hmem, ms, hd, hsm⟩ := scanPeriphs_sound h
    obtain ⟨j, m, hj, hidx, hmatch⟩ := scanMaps_sound hsm
    obtain ⟨mp, hmm, hname, hcand⟩ := matchSig_sound hmatch
    refine ⟨⟨c.periphName, c.mapIndex, c.signalName, mp⟩, ?_, rfl, rfl, rfl, ?_, hcand⟩
    · refine mem_chipEntries_intro (n := c.periphName) (d := c.periphDef)
        (by rw [hps]; simpa using hmem) ?_
      unfold periphEntries
      rw [hd]
      have hin := mem_mapsEntries_intro (n := c.periphName) (a := 0) hj hmm
      rw [show (0 : Nat) + j = c.mapIndex from by omega] at hin
      exact hin
    · rcases hname with hn | hn
      · exact Or.inl hn
      · exact Or.inr hn

/-- Resolved scheme map of a context: each of its signal entries is a
scheme entry of the chip at the context's peripheral and index. -/
theorem findCtx_pinmap_entries {chip : ChipData} {fn : String} {cand : Option String}
    {c : Ctx} {ms : List Pinmap} {tm : Pinmap} {sig tp : String}
    (h : findFunctionContext chip fn cand = some c)
    (hd : c.periphDef.pinmaps = some ms) (htm : ms.get? c.mapIndex = some tm)
    (he : (sig, tp) ∈ tm) :
    (⟨c.periphName, c.mapIndex, sig, tp⟩ : SchemeEntry) ∈ chipEntries chip := by
  unfold findFunctionContext at h
  cases hps : chip.peripherals with
  | none => rw [hps] at h; simp at h
  | some ps =>
    rw [hps] at h
    obtain ⟨hmem, ms2, hd2, hsm⟩ := scanPeriphs_sound h
    refine mem_chipEntries_intro (n := c.periphName) (d := c.periphDef)
      (by rw [hps]; simpa using hmem) ?_
    unfold periphEntries
    rw [hd]
    have hin := mem_mapsEntries_intro (n := c.periphName) (a := 0) htm he
    rw [show (0 : Nat) + c.mapIndex = c.mapIndex from by omega] at hin
    exact hin

/-- Completeness of `findFunctionContext` for the unconstrained reverse
lookup: a function matching any scheme entry resolves to some
context. -/
theorem findCtx_complete {chip : ChipData} {fn : String} {e : SchemeEntry}
    (he : e ∈ chipEntries chip) (hname : fn = fullOf e ∨ fn = shortOf e) :
    (findFunctionContext chip fn none).isSome = true := by
  obtain ⟨⟨pn, d⟩, hpd, hpe⟩ := mem_chipEntries_elim he
  unfold periphEntries at hpe
  cases hd : d.pinmaps with
  | none => rw [hd] at hpe; simp at hpe
  | some ms =>
    rw [hd] at hpe
    obtain ⟨hper, j, m, hj, hidx, hmm⟩ := mem_mapsEntries_elim hpe
    unfold findFunctionContext
    cases hps : chip.peripherals with
    | none => rw [hps] at hpd; simp at hpd
    | some ps =>
      have hpd2 : (pn, d) ∈ ps := by rw [hps] at hpd; simpa using hpd
      refine scanPeriphs_complete hpd2 hd (scanMaps_complete hj ?_)
      refine matchSig_complete hmm ?_ (Or.inl rfl)
      have hsfx : suffixOf (0 + j) = suffixOf e.idx := by
        rw [show (0 : Nat) + j = e.idx from by omega]
      rcases hname with hn | hn
      · left
        rw [hn]
        unfold fullOf
        rw [hper, hsfx]
      · right
        rw [hn]
        unfold shortOf
        rw [hsfx]

/-- Reading a key yields an entry of the list. -/
theorem getV_mem {α : Type} {l : List (String × α)} {k : String} {v : α}
    (h : getV l k = some v) : (k, v) ∈ l := by
  induction l with
  | nil => simp [getV] at h
  | cons hd t ih =>
    obtain ⟨q, w⟩ := hd
    simp only [getV] at h
    by_cases hq : q = k
    · rw [if_pos hq] at h
      obtain rfl : w = v := Option.some.inj h
      rw [hq]
      exact List.mem_cons_self _ _
    · rw [if_neg hq] at h
      exact List.mem_cons_of_mem _ (ih h)

/-- A supported function comes from a capability entry of the pin
table. -/
theorem getPinFunctions_mem {chip : ChipData} {pinName func : String}
    (h : func ∈ getPinFunctions chip pinName) :
    ∃ pc : String × PinCapability, pc ∈ chip.pins.getD [] ∧ pc.1 = pinName ∧
      func ∈ pc.2.functions := by
  unfold getPinFunctions at h
  cases hp : chip.pins with
  | none => rw [hp] at h; simp at h
  | some ps =>
    rw [hp] at h
    cases hv : getV ps pinName with
    | none => simp only [hv] at h; simp at h
    | some cap =>
      simp only [hv] at h
      exact ⟨(pinName, cap), by simpa using getV_mem hv, rfl, h⟩

/-- Under capability-scoped unambiguity, a capability-listed function
matching a scheme entry resolves (without candidate) to that entry's
pair. -/
theorem pairOf_of_matches_cap {chip : ChipData} (hCU : CapUnambiguous chip)
    {p fn : String} (hf : fn ∈ getPinFunctions chip p)
    {e : SchemeEntry} (he : e ∈ chipEntries chip)
    (hname : fn = fullOf e ∨ fn = shortOf e) :
    pairOf chip fn = some (e.periph, e.sig) := by
  obtain ⟨pc, hpc, hpc1, hpcf⟩ := getPinFunctions_mem hf
  have hs := findCtx_complete he hname
  cases hc : findFunctionContext chip fn none with
  | none => rw [hc] at hs; simp at hs
  | some c =>
    obtain ⟨e2, he2, hp2, hi2, hs2, hname2, _⟩ := findCtx_sound hc
    obtain ⟨hpeq, hseq⟩ := hCU pc hpc fn hpcf e2 he2 e he hname2 hname
    unfold pairOf
    rw [hc, ← hpeq, ← hseq, hp2, hs2]

/-- With unique signal keys, a signal determines its pin within one
scheme. -/
theorem nodup_keys_inj {m : Pinmap} (hnd : (m.map Prod.fst).Nodup) {s a b : String}
    (ha : (s, a) ∈ m) (hb : (s, b) ∈ m) : a = b := by
  induction m with
  | nil => simp at ha
  | cons e t ih =>
    obtain ⟨q, w⟩ := e
    simp only [List.map_cons, List.nodup_cons] at hnd
    rcases List.mem_cons.mp ha with h1 | h2 <;> rcases List.mem_cons.mp hb with h3 | h4
    · injection h1 with hA hB
      injection h3 with hC hD
      rw [hB, hD]
    · injection h1 with hA hB
      exfalso
      exact hnd.1 (by rw [← hA]; exact List.mem_map.mpr ⟨(s, b), h4, rfl⟩)
    · injection h3 with hC hD
      exfalso
      exact hnd.1 (by rw [← hC]; exact List.mem_map.mpr ⟨(s, a), h2, rfl⟩)
    · exact ih hnd.2 h2 h4

/-- Entries surviving the exclusivity pass: they come from the table
and are the assigned pin itself or resolve away from the new pair. -/
theorem mem_exclPass {chip : ChipData} {cfg : Config} {pinName P S p fp : String}
    (h : (p, fp) ∈ exclPass chip cfg pinName P S) :
    (p, fp) ∈ cfg ∧ (p = pinName ∨ pairOf chip fp ≠ some (P, S)) := by
  unfold exclPass at h
  have hm := List.mem_filter.mp h
  exact ⟨hm.1, by simpa using of_decide_eq_true hm.2⟩

/-- Entries surviving the migration-clearing fold: they come from the
starting table and resolve away from every migrated function's pair. -/
theorem mem_foldl_delForOp_strong {chip : ChipData} {ops : List (String × String)}
    {c0 : Config} {p fp : String} (h : (p, fp) ∈ ops.foldl (delForOp chip) c0) :
    (p, fp) ∈ c0 ∧ ∀ op ∈ ops, ∀ cx, findFunctionContext chip op.2 none = some cx →
      pairOf chip fp ≠ some (cx.periphName, cx.signalName) := by
  induction ops generalizing c0 with
  | nil => exact ⟨h, by simp⟩
  | cons op t ih =>
    simp only [List.foldl_cons] at h
    obtain ⟨h1, h2⟩ := ih h
    unfold delForOp at h1
    cases hcx : findFunctionContext chip op.2 none with
    | none =>
      simp only [hcx] at h1
      refine ⟨h1, ?_⟩
      intro op2 hop2 cx hcx2
      rcases List.mem_cons.mp hop2 with h3 | h4
      · rw [h3] at hcx2
        rw [hcx2] at hcx
        exact absurd hcx (by simp)
      · exact h2 op2 h4 cx hcx2
    | some cx0 =>
      simp only [hcx] at h1
      have hm := List.mem_filter.mp h1
      refine ⟨hm.1, ?_⟩
      intro op2 hop2 cx hcx2
      rcases List.mem_cons.mp hop2 with h3 | h4
      · rw [h3] at hcx2
        rw [hcx2] at hcx
        obtain rfl : cx = cx0 := Option.some.inj hcx
        simpa using of_decide_eq_true hm.2
      · exact h2 op2 h4 cx hcx2

/-- A non-empty chosen target function is the full or short name of its
sibling signal. -/
theorem targetFuncFor_cases {chip : ChipData} {P sfx sig tp : String}
    (h : targetFuncFor chip P sfx sig tp ≠ "") :
    targetFuncFor chip P sfx sig tp = P ++ "_" ++ sig ++ sfx ∨
      targetFuncFor chip P sfx sig tp = sig ++ sfx := by
  unfold targetFuncFor at h ⊢
  dsimp only at h ⊢
  split_ifs <;> simp_all

/-- The peripheral of a resolved context is an entry of the peripheral
table. -/
theorem findCtx_periph_mem {chip : ChipData} {fn : String} {cand : Option String}
    {c : Ctx} (h : findFunctionContext chip fn cand = some c) :
    (c.periphName, c.periphDef) ∈ chip.peripherals.getD [] := by
  unfold findFunctionContext at h
  cases hps : chip.peripherals with
  | none => rw [hps] at h; simp at h
  | some ps =>
    rw [hps] at h
    simpa using (scanPeriphs_sound h).1

/-- Under capability-scoped unambiguity, the function just assigned
(which passed the membership guard) resolves unconstrained to the pair
of its pin-constrained context. -/
theorem pairOf_assigned {chip : ChipData} (hCU : CapUnambiguous chip)
    {func pinName : String} {ctx : Ctx}
    (hfm : func ∈ getPinFunctions chip pinName)
    (hctx : findFunctionContext chip func (some pinName) = some ctx) :
    pairOf chip func = some (ctx.periphName, ctx.signalName) := by
  obtain ⟨e, he, hp, hi, hsg, hname, _⟩ := findCtx_sound hctx
  have hm := pairOf_of_matches_cap hCU hfm he hname
  rw [hm, hp, hsg]

/-- Every migration operation of the linkage pass targets a sibling
entry of the resolved scheme and carries a function resolving to that
sibling's pair. -/
theorem linkage_op_pair {chip : ChipData} (hCU : CapUnambiguous chip)
    {func pinName : String} {ctx : Ctx} {ms : List Pinmap} {tm : Pinmap}
    (hctx : findFunctionContext chip func (some pinName) = some ctx)
    (hd : ctx.periphDef.pinmaps = some ms) (htm : ms.get? ctx.mapIndex = some tm)
    {base : Config} {x fx : String}
    (hop : (x, fx) ∈ (linkagePass chip base ctx.periphName ctx.signalName
      (suffixOf ctx.mapIndex) tm).1) :
    ∃ sig, (sig, x) ∈ tm ∧ sig ≠ ctx.signalName ∧
      pairOf chip fx = some (ctx.periphName, sig) := by
  obtain ⟨sig, tp, hmemtm, hne, hne2, heq⟩ := mem_linkagePass_ops hop
  injection heq with heq1 heq2
  have hentry := findCtx_pinmap_entries hctx hd htm hmemtm
  have hcases := targetFuncFor_cases hne2
  refine ⟨sig, by rw [heq1]; exact hmemtm, hne, ?_⟩
  have hpm : pairOf chip fx =
      some ((⟨ctx.periphName, ctx.mapIndex, sig, tp⟩ : SchemeEntry).periph,
        (⟨ctx.periphName, ctx.mapIndex, sig, tp⟩ : SchemeEntry).sig) := by
    refine pairOf_of_matches_cap hCU (p := tp) ?_ hentry ?_
    · rw [heq2]
      exact targetFuncFor_mem hne2
    · rw [heq2]
      rcases hcases with hc | hc
      · exact Or.inl hc
      · exact Or.inr hc
  exact hpm

/-- Classification of the entries of a committed table: the directly
requested write, a scheduled migration write, or a survivor of both
clearing passes. -/
theorem commit_entry_classify {chip : ChipData} {base : Config}
    {ops : List (String × String)} {pinName func x fx : String}
    (hmem : (x, fx) ∈ setV (ops.foldl (fun c op => setV c op.1 op.2)
      (ops.foldl (delForOp chip) base)) pinName func) :
    (x, fx) = (pinName, func) ∨ (x, fx) ∈ ops ∨
      ((x, fx) ∈ base ∧ ∀ op ∈ ops, ∀ cx, findFunctionContext chip op.2 none = some cx →
        pairOf chip fx ≠ some (cx.periphName, cx.signalName)) := by
  rcases mem_setV hmem with h1 | h2
  · exact Or.inl h1
  · rcases mem_foldl_setV h2 with h3 | h4
    · exact Or.inr (Or.inl h3)
    · exact Or.inr (Or.inr (mem_foldl_delForOp_strong h4))

/-- Exclusivity is preserved by a commit without linkage (exclusivity
pass plus the direct write). -/
theorem exclusive_after_setV_base {chip : ChipData} {cfg : Config}
    {pinName func P S : String} (hpairf : pairOf chip func = some (P, S))
    (hInv : ExclusiveTable chip cfg) :
    ExclusiveTable chip (setV (exclPass chip cfg pinName P S) pinName func) := by
  intro p q fp fq pr hp hq hfp hfq
  rcases mem_setV hp with hp1 | hp2 <;> rcases mem_setV hq with hq1 | hq2
  · injection hp1 with hpa hpb
    injection hq1 with hqa hqb
    rw [hpa, hqa]
  · injection hp1 with hpa hpb
    have hpr : pr = (P, S) := by
      rw [hpb, hpairf] at hfp
      exact (Option.some.inj hfp).symm
    obtain ⟨hqcfg, hqc⟩ := mem_exclPass hq2
    rcases hqc with hq3 | hq3
    · rw [hpa, hq3]
    · rw [hpr] at hfq
      exact absurd hfq hq3
  · injection hq1 with hqa hqb
    have hpr : pr = (P, S) := by
      rw [hqb, hpairf] at hfq
      exact (Option.some.inj hfq).symm
    obtain ⟨hpcfg, hpc⟩ := mem_exclPass hp2
    rcases hpc with hp3 | hp3
    · rw [hp3, hqa]
    · rw [hpr] at hfp
      exact absurd hfp hp3
  · obtain ⟨hpcfg, _⟩ := mem_exclPass hp2
    obtain ⟨hqcfg, _⟩ := mem_exclPass hq2
    exact hInv p q fp fq pr hpcfg hqcfg hfp hfq

/-- Exclusivity is preserved by a full linkage commit. -/
theorem exclusive_after_commit {chip : ChipData} (hCU : CapUnambiguous chip)
    (hND : NodupSigKeys chip) {cfg : Config} {pinName func : String} {ctx : Ctx}
    {ms : List Pinmap} {tm : Pinmap}
    (hfm : func ∈ getPinFunctions chip pinName)
    (hctx : findFunctionContext chip func (some pinName) = some ctx)
    (hd : ctx.periphDef.pinmaps = some ms) (htm : ms.get? ctx.mapIndex = some tm)
    (hInv : ExclusiveTable chip cfg) :
    ExclusiveTable chip
      (setV ((linkagePass chip (exclPass chip cfg pinName ctx.periphName ctx.signalName)
          ctx.periphName ctx.signalName (suffixOf ctx.mapIndex) tm).1.foldl
          (fun c op => setV c op.1 op.2)
          ((linkagePass chip (exclPass chip cfg pinName ctx.periphName ctx.signalName)
            ctx.periphName ctx.signalName (suffixOf ctx.mapIndex) tm).1.foldl
            (delForOp chip)
            (exclPass chip cfg pinName ctx.periphName ctx.signalName)))
        pinName func) := by
  have hpairf := pairOf_assigned hCU hfm hctx
  have hnd : (tm.map Prod.fst).Nodup := by
    refine hND (ctx.periphName, ctx.periphDef) (findCtx_periph_mem hctx) tm ?_
    have htmm : tm ∈ ms := List.get?_mem htm
    rw [hd]
    exact htmm
  intro p q fp fq pr hp hq hfp hfq
  rcases commit_entry_classify hp with hpA | hpB | hpC <;>
    rcases commit_entry_classify hq with hqA | hqB | hqC
  · -- both the direct write
    injection hpA with hpa hpb
    injection hqA with hqa hqb
    rw [hpa, hqa]
  · -- direct write vs migration: pairs differ
    injection hpA with hpa hpb
    obtain ⟨sig, hsigm, hsigne, hsigp⟩ := linkage_op_pair hCU hctx hd htm hqB
    rw [hpb, hpairf] at hfp
    rw [hsigp] at hfq
    rw [← hfp] at hfq
    have := Option.some.inj hfq
    injection this with hP hS
    exact absurd hS hsigne
  · -- direct write vs survivor
    injection hpA with hpa hpb
    have hpr : pr = (ctx.periphName, ctx.signalName) := by
      rw [hpb, hpairf] at hfp
      exact (Option.some.inj hfp).symm
    obtain ⟨hqbase, _⟩ := hqC
    obtain ⟨hqcfg, hqc⟩ := mem_exclPass hqbase
    rcases hqc with hq3 | hq3
    · rw [hpa, hq3]
    · rw [hpr] at hfq
      exact absurd hfq hq3
  · -- migration vs direct write (mirror of case 2)
    injection hqA with hqa hqb
    obtain ⟨sig, hsigm, hsigne, hsigp⟩ := linkage_op_pair hCU hctx hd htm hpB
    rw [hqb, hpairf] at hfq
    rw [hsigp] at hfp
    rw [← hfq] at hfp
    have := Option.some.inj hfp
    injection this with hP hS
    exact absurd hS hsigne
  · -- migration vs migration: same pair forces the same sibling entry
    obtain ⟨sig1, hm1, hne1, hp1⟩ := linkage_op_pair hCU hctx hd htm hpB
    obtain ⟨sig2, hm2, hne2, hp2⟩ := linkage_op_pair hCU hctx hd htm hqB
    rw [hp1] at hfp
    rw [hp2] at hfq
    rw [← hfp] at hfq
    have := Option.some.inj hfq
    injection this with hP hS
    rw [hS] at hm2
    exact nodup_keys_inj hnd hm1 hm2
  · -- migration vs survivor: the survivor avoids every migrated pair
    obtain ⟨sig1, hm1, hne1, hp1⟩ := linkage_op_pair hCU hctx hd htm hpB
    obtain ⟨hqbase, hqno⟩ := hqC
    exfalso
    have hpr : pr = (ctx.periphName, sig1) := by
      rw [hp1] at hfp
      exact (Option.some.inj hfp).symm
    cases hcx : findFunctionContext chip fp none with
    | none =>
      unfold pairOf at hp1
      rw [hcx] at hp1
      simp at hp1
    | some cx =>
      have hcxp : (cx.periphName, cx.signalName) = (ctx.periphName, sig1) := by
        unfold pairOf at hp1
        rw [hcx] at hp1
        exact Option.some.inj hp1
      have hqn := hqno (p, fp) hpB cx hcx
      apply hqn
      rw [hcxp, hfq, hpr]
  · -- survivor vs direct write (mirror of case 3)
    injection hqA with hqa hqb
    have hpr : pr = (ctx.periphName, ctx.signalName) := by
      rw [hqb, hpairf] at hfq
      exact (Option.some.inj hfq).symm
    obtain ⟨hpbase, _⟩ := hpC
    obtain ⟨hpcfg, hpc⟩ := mem_exclPass hpbase
    rcases hpc with hp3 | hp3
    · rw [hp3, hqa]
    · rw [hpr] at hfp
      exact absurd hfp hp3
  · -- survivor vs migration (mirror of case 6)
    obtain ⟨sig2, hm2, hne2, hp2⟩ := linkage_op_pair hCU hctx hd htm hqB
    obtain ⟨hpbase, hpno⟩ := hpC
    exfalso
    have hpr : pr = (ctx.periphName, sig2) := by
      rw [hp2] at hfq
      exact (Option.some.inj hfq).symm
    cases hcx : findFunctionContext chip fq none with
    | none =>
      unfold pairOf at hp2
      rw [hcx] at hp2
      simp at hp2
    | some cx =>
      have hcxp : (cx.periphName, cx.signalName) = (ctx.periphName, sig2) := by
        unfold pairOf at hp2
        rw [hcx] at hp2
        exact Option.some.inj hp2
      have hpn := hpno (q, fq) hqB cx hcx
      apply hpn
      rw [hcxp, hfp, hpr]
  · -- both survivors: fall back to the table invariant
    obtain ⟨hpbase, _⟩ := hpC
    obtain ⟨hqbase, _⟩ := hqC
    obtain ⟨hpcfg, _⟩ := mem_exclPass hpbase
    obtain ⟨hqcfg, _⟩ := mem_exclPass hqbase
    exact hInv p q fp fq pr hpcfg hqcfg hfp hfq

/-- One `setPinFunction` call preserves table exclusivity, under the
three chip-side hypotheses. -/
theorem setPinFunction_exclusive (chip : ChipData) (hRT : ResolveTotal chip)
    (hCU : CapUnambiguous chip) (hND : NodupSigKeys chip) (cfg : Config)
    (pinName func : String) (hInv : ExclusiveTable chip cfg) :
    ExclusiveTable chip (setPinFunction chip cfg pinName func).1 := by
  by_cases hf : func = ""
  · simp only [setPinFunction, if_pos hf]
    intro p q fp fq pr hp hq hfp hfq
    exact hInv p q fp fq pr (List.mem_of_mem_filter hp) (List.mem_of_mem_filter hq) hfp hfq
  · by_cases hs : func ∈ getPinFunctions chip pinName
    · cases hctx : findFunctionContext chip func (some pinName) with
      | none =>
        simp only [setPinFunction, if_neg hf, hctx]
        rw [if_neg (by simpa using hs)]
        obtain ⟨pc, hpc, hpc1, hpcf⟩ := getPinFunctions_mem hs
        have hnone : findFunctionContext chip func none = none := by
          refine hRT pc hpc func hpcf ?_
          rw [hpc1]
          exact hctx
        have hpnone : pairOf chip func = none := by
          unfold pairOf
          rw [hnone]
        intro p q fp fq pr hp hq hfp hfq
        rcases mem_setV hp with hp1 | hp2 <;> rcases mem_setV hq with hq1 | hq2
        · injection hp1 with hpa hpb
          injection hq1 with hqa hqb
          rw [hpa, hqa]
        · injection hp1 with hpa hpb
          rw [hpb, hpnone] at hfp
          exact absurd hfp (by simp)
        · injection hq1 with hqa hqb
          rw [hqb, hpnone] at hfq
          exact absurd hfq (by simp)
        · exact hInv p q fp fq pr hp2 hq2 hfp hfq
      | some ctx =>
        have hpairf := pairOf_assigned hCU hs hctx
        cases hms : ctx.periphDef.pinmaps with
        | none =>
          simp only [setPinFunction, if_neg hf, hctx, hms]
          rw [if_neg (by simpa using hs)]
          exact exclusive_after_setV_base hpairf hInv
        | some ms =>
          cases hpm : ms.get? ctx.mapIndex with
          | none =>
            simp only [setPinFunction, if_neg hf, hctx, hms, hpm]
            rw [if_neg (by simpa using hs)]
            exact exclusive_after_setV_base hpairf hInv
          | some tm =>
            by_cases hc :
              (linkagePass chip (exclPass chip cfg pinName ctx.periphName ctx.signalName)
                ctx.periphName ctx.signalName (suffixOf ctx.mapIndex) tm).2 = []
            · simp only [setPinFunction, if_neg hf, hctx, hms, hpm, hc, if_pos,
                if_neg (not_not_intro hc)]
              rw [if_neg (by simpa using hs)]
              exact exclusive_after_commit hCU hND hs hctx hms hpm hInv
            · simp only [setPinFunction, if_neg hf, hctx, hms, hpm,
                if_pos (by simpa using hc)]
              rw [if_neg (by simpa using hs)]
              exact hInv
    · simp only [setPinFunction, if_neg hf]
      rw [if_pos (by simpa using hs)]
      exact hInv

/-- C3 counterexample: on the chip the inference compiler produces for
the Scenario B description, `PB6`'s capability list holds the
unsuffixed `USART1_TX`, which does not resolve at `PB6`; assigning it
to `PA9` and then to `PB6` commits a table in which the two distinct
pins both hold `USART1_TX`, and that function resolves to the pair
`(USART1, TX)` — exclusivity is violated on a table reachable from the
empty table. -/
theorem c3_exclusivity_violated :
    ¬ ExclusiveTable chipB (applyOps chipB [("PA9", "USART1_TX"), ("PB6", "USART1_TX")]) := by
  intro h
  have hcontra := h "PA9" "PB6" "USART1_TX" "USART1_TX" ("USART1", "TX")
    (by decide) (by decide) (by decide) (by decide)
  exact absurd hcontra (by decide)

/-- C3 amended: for every chip whose capability lists resolve
consistently (`ResolveTotal`: a listed function of a pin that resolves
at all also resolves at that pin), whose capability-listed function
names are unambiguous (`CapUnambiguous`: the scheme entries a listed
name matches agree on `(peripheral, signal)` — bare short names never
offered as capabilities may still collide across peripherals), and
whose scheme maps have unique signal keys (`NodupSigKeys`), every
committed table reachable from the empty table by assign/clear
operations is exclusive: no two distinct pins hold FunctionIds that
resolve (via the context resolver, without a candidate-pin constraint)
to the same `(peripheral, signal)` pair, regardless of scheme index. -/
theorem c3_exclusive_amended (chip : ChipData) (hRT : ResolveTotal chip)
    (hCU : CapUnambiguous chip) (hND : NodupSigKeys chip)
    (ops : List (String × String)) :
    ExclusiveTable chip (applyOps chip ops) := by
  suffices hgen : ∀ (l : List (String × String)) (c0 : Config), ExclusiveTable chip c0 →
      ExclusiveTable chip (l.foldl (fun cfg op => (setPinFunction chip cfg op.1 op.2).1) c0) by
    refine hgen ops [] ?_
    intro p q fp fq pr hp hq hfp hfq
    simp at hp
  intro l
  induction l with
  | nil => intro c0 h0; exact h0
  | cons op t ih =>
    intro c0 h0
    exact ih _ (setPinFunction_exclusive chip hRT hCU hND c0 op.1 op.2 h0)

instance (chip : ChipData) : Decidable (ResolveTotal chip) := by
  unfold ResolveTotal
  infer_instance

instance (chip : ChipData) : Decidable (CapUnambiguous chip) := by
  unfold CapUnambiguous
  infer_instance

instance (chip : ChipData) : Decidable (NodupSigKeys chip) := by
  unfold NodupSigKeys
  infer_instance

/-- Witness for the amended C3 on `chipTwo`, a chip with two UART
peripherals whose bare short names (`TX`, `RX`) collide across
peripherals: the capability-scoped hypotheses still hold (the
capability lists carry only prefixed names), and the sequence mixing
both peripherals with a scheme-1 migration produces an exclusive
table. -/
theorem c3_exclusive_amended_w :
    ExclusiveTable chipTwo (applyOps chipTwo
      [("PA9", "USART1_TX"), ("PA10", "USART1_RX"), ("PA2", "USART2_TX"),
        ("PB6", "USART1_TX_1")]) :=
  c3_exclusive_amended chipTwo (by decide) (by decide) (by decide)
    [("PA9", "USART1_TX"), ("PA10", "USART1_RX"), ("PA2", "USART2_TX"),
      ("PB6", "USART1_TX_1")]

end PinMuxLab
